import Mathlib

/-!
Shallow embedding of the character-level text-generation notebook
(`6.1 - Text generation with RNN.ipynb`).

The embedding covers the pieces of genuine program logic:

* the temperature sampler `sample(preds, temperature)`;
* the vocabulary indexer (`chars`, `char_to_int`, `int_to_char`);
* the sliding-window dataset construction (`inputs` / `outputs` loop);
* the autoregressive generator `generate(sentence, prediction_length, diversity)`.

Machine floats are modelled as real numbers.  The IEEE value `-inf`
produced by `np.log(0.0)` is modelled explicitly by `Option ℝ`
(`none` standing for `-inf`); `np.exp` maps it to `0`.  The single
categorical draw performed by `np.random.multinomial(1, p, 1)` followed by
`np.argmax` is modelled by inverse-CDF sampling from an externally
supplied uniform random number `u ∈ [0,1)`.
-/

/-- Model of `np.log` on a non-negative float: `log 0 = -inf` is encoded as
`none`, and `log x` for `x ≠ 0` as `some (Real.log x)`. -/
noncomputable def flog (x : ℝ) : Option ℝ :=
  if x = 0 then none else some (Real.log x)

/-- Model of `np.exp` on a float that may be `-inf`: `exp (-inf) = 0`. -/
noncomputable def fexp : Option ℝ → ℝ
  | none => 0
  | some y => Real.exp y

/-- The probability vector computed inside `sample`:
`preds = np.log(preds) / temperature; exp_preds = np.exp(preds);
preds = exp_preds / np.sum(exp_preds)`.
Dividing `-inf` by a positive temperature leaves `-inf`, which the
`Option.map` models. -/
noncomputable def sampleProbs (preds : List ℝ) (t : ℝ) : List ℝ :=
  let logPreds := preds.map (fun x => (flog x).map (fun y => y / t))
  let expPreds := logPreds.map fexp
  expPreds.map (fun e => e / expPreds.sum)

/-- Inverse-CDF draw from a finite nonnegative vector: the least index `i`
with `u < p 0 + ⋯ + p i` (and the length of the list if no such index
exists).  This is the distribution of `np.argmax` applied to
`np.random.multinomial(1, p, 1)`. -/
noncomputable def cdfIndex : List ℝ → ℝ → Nat
  | [], _ => 0
  | q :: qs, u => if u < q then 0 else cdfIndex qs (u - q) + 1

/-- The function `sample(preds, temperature)` of the notebook, with the random draw made
explicit through a uniform number `u ∈ [0,1)`. -/
noncomputable def sample (preds : List ℝ) (t u : ℝ) : Nat :=
  cdfIndex (sampleProbs preds t) u

/-- The per-element effect of the log/divide/exp pipeline of `sample` on a
nonnegative float input, in closed form. -/
noncomputable def gval (t x : ℝ) : ℝ :=
  if x = 0 then 0 else Real.exp (Real.log x / t)

/-- The vocabulary list `chars = sorted(list(set(raw_text)))`: the distinct
characters of the corpus in ascending order. -/
def charsOf (corpus : List Char) : List Char :=
  corpus.toFinset.sort (fun a b => a ≤ b)

/-- The dictionary `char_to_int = dict((c, i) for i, c in enumerate(chars))`:
a character maps to its position in `chars` (and a key miss is `none`). -/
def char_to_int (corpus : List Char) (c : Char) : Option Nat :=
  if c ∈ charsOf corpus then some ((charsOf corpus).indexOf c) else none

/-- The dictionary `int_to_char = dict((i, c) for i, c in enumerate(chars))`:
an integer maps to the character at that position in `chars`. -/
def int_to_char (corpus : List Char) (i : Nat) : Option Char :=
  (charsOf corpus)[i]?

/-- Errors a step of the embedded program can raise, mirroring the Python
exceptions that the corresponding operations can throw. -/
inductive GenError where
  /-- Python `KeyError` from `char_to_int[char]` on a character outside the vocabulary. -/
  | keyError : Char → GenError
  /-- Python `IndexError` from an out-of-bounds numpy access or assignment. -/
  | indexError : GenError
  /-- Python `KeyError` from `int_to_char[next_index]` on an index outside `[0, V)`. -/
  | keyErrorIdx : Nat → GenError
deriving DecidableEq

/-- Runs a fallible operation over each list element in order, collecting the
results and stopping at the first raised error (a Python `for` loop that
appends to an accumulator list). -/
def exceptMap {α β : Type} (f : α → Except GenError β) : List α → Except GenError (List β)
  | [] => Except.ok []
  | a :: as =>
    match f a with
    | Except.error e => Except.error e
    | Except.ok b =>
      match exceptMap f as with
      | Except.error e => Except.error e
      | Except.ok bs => Except.ok (b :: bs)

/-- The windowing loop
`for i in range(0, n_chars - seq_length, 1): inputs.append(raw_text[i:i + seq_length]); outputs.append(raw_text[i + seq_length])`,
with the two parallel lists fused into a list of pairs.  Slicing
`raw_text[i:i + L]` is total (`drop`/`take`); the scalar access
`raw_text[i + L]` is bounds-checked as in Python.  For `n_chars ≤ seq_length`
the `range` is empty and the loop produces no pairs. -/
def windowPairsE (corpus : List Char) (L : Nat) : Except GenError (List (List Char × Char)) :=
  exceptMap
    (fun i =>
      match corpus[i + L]? with
      | some c => Except.ok ((corpus.drop i).take L, c)
      | none => Except.error GenError.indexError)
    (List.range (corpus.length - L))

/-- A one-hot row of width `V` with the `1` at position `idx`: the effect of
`x[0, t, idx] = 1` on an all-zero row. -/
def encodeRow (V idx : Nat) : List ℝ :=
  (List.range V).map (fun j => if j = idx then 1 else 0)

/-- The per-position body of the encoding loop
`for t, char in enumerate(sentence): x[0, t, char_to_int[char]] = 1`:
at each position `t` (in order), Python first evaluates the dictionary
lookup `char_to_int[char]` — raising `KeyError` on a character outside the
vocabulary — and only then performs the numpy assignment, whose bound on
axis 1 raises `IndexError` when `t ≥ L`.  The looked-up indices are
collected; the first failing position aborts the loop with its own
exception. -/
def encodeIdxs (chars : List Char) (L : Nat) : Nat → List Char → Except GenError (List Nat)
  | _, [] => Except.ok []
  | t, c :: cs =>
    if c ∈ chars then
      if t < L then
        match encodeIdxs chars L (t + 1) cs with
        | Except.error e => Except.error e
        | Except.ok idxs => Except.ok (chars.indexOf c :: idxs)
      else Except.error GenError.indexError
    else Except.error (GenError.keyError c)

/-- The encoding step of `generate`:
`x = np.zeros((1, X.shape[1], X.shape[2]))` followed by the `enumerate`
loop of `encodeIdxs` starting at position 0.  The leading batch axis of
size 1 is dropped; the result is the `(L, V)` matrix whose row `t` is the
one-hot of the `t`-th collected index and stays all-zero beyond the
sentence. -/
def encodeWindow (chars : List Char) (L : Nat) (s : List Char) : Except GenError (List (List ℝ)) :=
  match encodeIdxs chars L 0 s with
  | Except.error e => Except.error e
  | Except.ok idxs =>
    Except.ok ((List.range L).map (fun t =>
      match idxs[t]? with
      | some idx => encodeRow chars.length idx
      | none => List.replicate chars.length 0))

/-- The program state visible to `generate`: the global vocabulary list
`chars` (with its two derived dictionaries), the trained model — an opaque
collaborator `x ↦ model.predict(x, verbose=0)[0]` — and the two string
variables `sentence` (the rolling window) and `generated` (the output
buffer). -/
structure PState where
  chars : List Char
  model : List (List ℝ) → List ℝ
  sentence : List Char
  generated : List Char

/-- The model collaborator behaves like the notebook's softmax-headed
network: on any input it returns a vector of length `|chars|` of strictly
positive reals. -/
def ValidModel (chars : List Char) (M : List (List ℝ) → List ℝ) : Prop :=
  ∀ x, (M x).length = chars.length ∧ ∀ p ∈ M x, 0 < p

/-- One iteration of the loop body of `generate`: encode the current
`sentence`, query the model, sample the next index with temperature `t` and
uniform draw `u`, map it back to a character, append it to `generated` and
roll `sentence = sentence[1:] + next_char`. -/
noncomputable def stepGen (L : Nat) (t u : ℝ) (st : PState) : Except GenError PState :=
  match encodeWindow st.chars L st.sentence with
  | Except.error e => Except.error e
  | Except.ok x =>
    let preds := st.model x
    let nextIndex := sample preds t u
    match st.chars[nextIndex]? with
    | some nextChar =>
      Except.ok { st with
        generated := st.generated ++ [nextChar],
        sentence := st.sentence.drop 1 ++ [nextChar] }
    | none => Except.error (GenError.keyErrorIdx nextIndex)

/-- The loop `for i in range(prediction_length)` of `generate`, consuming one
uniform draw per iteration; an exception in any iteration aborts the loop. -/
noncomputable def genLoop (L : Nat) (t : ℝ) : List ℝ → PState → Except GenError PState
  | [], st => Except.ok st
  | u :: us, st =>
    match stepGen L t u st with
    | Except.error e => Except.error e
    | Except.ok st' => genLoop L t us st'

/-- The function `generate(sentence, prediction_length, diversity)`: initialize
`generated = sentence` and run the loop; `us` supplies the
`prediction_length` uniform draws consumed by `sample`. -/
noncomputable def generate (chars : List Char) (M : List (List ℝ) → List ℝ)
    (L : Nat) (seed : List Char) (t : ℝ) (us : List ℝ) : Except GenError PState :=
  genLoop L t us { chars := chars, model := M, sentence := seed, generated := seed }

-- basic lemmas about the sampler pipeline

theorem fexp_flog_pipeline (t x : ℝ) :
    fexp ((flog x).map (fun y => y / t)) = gval t x := by
  unfold flog gval
  by_cases h : x = 0 <;> simp [h, fexp]

theorem map_div_sum (l : List ℝ) (f : ℝ → ℝ) (c : ℝ) :
    (l.map (fun x => f x / c)).sum = (l.map f).sum / c := by
  induction l with
  | nil => simp
  | cons a l ih => simp [ih, add_div]

theorem map_mul_sum (l : List ℝ) (f : ℝ → ℝ) (a : ℝ) :
    (l.map (fun x => a * f x)).sum = a * (l.map f).sum := by
  induction l with
  | nil => simp
  | cons b l ih => simp [ih, mul_add]

theorem cdfIndex_nil (u : ℝ) : cdfIndex [] u = 0 := rfl

theorem cdfIndex_cons (q : ℝ) (qs : List ℝ) (u : ℝ) :
    cdfIndex (q :: qs) u = if u < q then 0 else cdfIndex qs (u - q) + 1 := rfl

theorem sampleProbs_eq_map (preds : List ℝ) (t : ℝ) :
    sampleProbs preds t =
      preds.map (fun x => gval t x / (preds.map (gval t)).sum) := by
  unfold sampleProbs
  simp only [List.map_map, Function.comp_def, fexp_flog_pipeline]

theorem sampleProbs_length (preds : List ℝ) (t : ℝ) :
    (sampleProbs preds t).length = preds.length := by
  rw [sampleProbs_eq_map]; simp

theorem gval_pos (t x : ℝ) (hx : 0 < x) : 0 < gval t x := by
  unfold gval
  rw [if_neg (ne_of_gt hx)]
  exact Real.exp_pos _

theorem gval_of_pos (t x : ℝ) (hx : 0 < x) :
    gval t x = Real.exp (Real.log x / t) := by
  unfold gval
  rw [if_neg (ne_of_gt hx)]

theorem gval_sum_pos (preds : List ℝ) (t : ℝ) (hne : preds ≠ [])
    (hpos : ∀ x ∈ preds, 0 < x) : 0 < (preds.map (gval t)).sum := by
  apply List.sum_pos
  · intro x hx
    rcases List.mem_map.1 hx with ⟨y, hy, rfl⟩
    exact gval_pos t y (hpos y hy)
  · simpa using hne

theorem sampleProbs_sum_one (preds : List ℝ) (t : ℝ) (hne : preds ≠ [])
    (hpos : ∀ x ∈ preds, 0 < x) : (sampleProbs preds t).sum = 1 := by
  rw [sampleProbs_eq_map, map_div_sum,
    div_self (ne_of_gt (gval_sum_pos preds t hne hpos))]

theorem sampleProbs_nonneg (preds : List ℝ) (t : ℝ)
    (hpos : ∀ x ∈ preds, 0 < x) :
    ∀ p ∈ sampleProbs preds t, 0 ≤ p := by
  rw [sampleProbs_eq_map]
  intro p hp
  rcases List.mem_map.1 hp with ⟨x, hx, rfl⟩
  have h1 : 0 ≤ gval t x := le_of_lt (gval_pos t x (hpos x hx))
  have h2 : 0 ≤ (preds.map (gval t)).sum := by
    apply List.sum_nonneg
    intro y hy
    rcases List.mem_map.1 hy with ⟨z, hz, rfl⟩
    exact le_of_lt (gval_pos t z (hpos z hz))
  positivity

theorem cdfIndex_lt_length :
    ∀ (l : List ℝ) (u : ℝ), 0 ≤ u → u < l.sum → cdfIndex l u < l.length := by
  intro l
  induction l with
  | nil => intro u h0 h1; simp at h1; linarith
  | cons q qs ih =>
    intro u h0 h1
    rw [cdfIndex_cons]
    by_cases h : u < q
    · rw [if_pos h]; simp
    · rw [if_neg h, List.length_cons]
      have hq : q ≤ u := le_of_not_lt h
      have : cdfIndex qs (u - q) < qs.length := by
        apply ih
        · linarith
        · simp only [List.sum_cons] at h1; linarith
      omega

theorem cdfIndex_eq_iff :
    ∀ (l : List ℝ) (u : ℝ) (i : Nat), (∀ x ∈ l, 0 ≤ x) → 0 ≤ u →
      i < l.length →
      (cdfIndex l u = i ↔ (l.take i).sum ≤ u ∧ u < (l.take (i + 1)).sum) := by
  intro l
  induction l with
  | nil => intro u i _ _ hi; simp at hi
  | cons q qs ih =>
    intro u i hnn h0 hi
    rw [cdfIndex_cons]
    match i with
    | 0 =>
      simp only [List.take_zero, List.sum_nil, List.take_succ_cons,
        List.sum_cons, add_zero]
      constructor
      · intro h
        by_cases hu : u < q
        · exact ⟨h0, hu⟩
        · rw [if_neg hu] at h; omega
      · intro h
        rw [if_pos h.2]
    | i + 1 =>
      have hnnq : 0 ≤ q := hnn q (List.mem_cons_self q qs)
      have hnnqs : ∀ x ∈ qs, 0 ≤ x := fun x hx => hnn x (List.mem_cons_of_mem q hx)
      simp only [List.take_succ_cons, List.sum_cons]
      by_cases hu : u < q
      · rw [if_pos hu]
        constructor
        · intro h; omega
        · intro h
          exfalso
          have : 0 ≤ (qs.take i).sum :=
            List.sum_nonneg (fun x hx => hnnqs x (List.mem_of_mem_take hx))
          have hle := h.1
          linarith
      · rw [if_neg hu]
        have hq : q ≤ u := le_of_not_lt hu
        have hilen : i < qs.length := by
          simpa using hi
        have h2 : 0 ≤ u - q := by linarith
        have hrec := ih (u - q) i hnnqs h2 hilen
        have hstep : cdfIndex qs (u - q) + 1 = i + 1 ↔ cdfIndex qs (u - q) = i := by
          omega
        rw [hstep, hrec]
        constructor
        · intro h; exact ⟨by linarith [h.1], by linarith [h.2]⟩
        · intro h; exact ⟨by linarith [h.1], by linarith [h.2]⟩

-- one-hot vectors: sums of their prefixes

theorem sum_of_onehot :
    ∀ (l : List ℝ) (k : Nat),
      (∀ j (hj : j < l.length), l[j] = if j = k then (1 : ℝ) else 0) →
      l.sum = if k < l.length then (1 : ℝ) else 0 := by
  intro l
  induction l with
  | nil => intro k _; simp
  | cons a l ih =>
    intro k h
    cases k with
    | zero =>
      have ha : a = 1 := by simpa using h 0 (by simp)
      have htail : ∀ j (hj : j < l.length), l[j] = if j = l.length then (1 : ℝ) else 0 := by
        intro j hj
        have h2 := h (j + 1) (by simpa using Nat.succ_lt_succ hj)
        rw [List.getElem_cons_succ] at h2
        rw [if_neg (by omega)] at h2
        rw [if_neg (by omega)]
        exact h2
      have hsum := ih l.length htail
      rw [if_neg (lt_irrefl _)] at hsum
      simp [List.sum_cons, ha, hsum]
    | succ k' =>
      have ha : a = 0 := by
        have h2 := h 0 (by simp)
        rw [List.getElem_cons_zero] at h2
        rw [if_neg (by omega)] at h2
        exact h2
      have htail : ∀ j (hj : j < l.length), l[j] = if j = k' then (1 : ℝ) else 0 := by
        intro j hj
        have h2 := h (j + 1) (by simpa using Nat.succ_lt_succ hj)
        rw [List.getElem_cons_succ] at h2
        by_cases hjk : j = k'
        · subst hjk
          rw [if_pos rfl] at h2
          rw [if_pos rfl]
          exact h2
        · rw [if_neg (by omega)] at h2
          rw [if_neg hjk]
          exact h2
      have hsum := ih k' htail
      rw [List.sum_cons, ha, hsum, zero_add, List.length_cons]
      by_cases hk : k' < l.length
      · rw [if_pos hk, if_pos (by omega)]
      · rw [if_neg hk, if_neg (by omega)]

theorem take_sum_of_onehot (l : List ℝ) (k : Nat) (hk : k < l.length)
    (h : ∀ j (hj : j < l.length), l[j] = if j = k then (1 : ℝ) else 0) :
    (l.take k).sum = 0 ∧ (l.take (k + 1)).sum = 1 := by
  constructor
  · have hprop : ∀ j (hj : j < (l.take k).length),
        (l.take k)[j] = if j = (l.take k).length then (1 : ℝ) else 0 := by
      intro j hj
      have hjk : j < k := lt_of_lt_of_le hj (List.length_take_le k l)
      rw [List.getElem_take, h j (lt_of_lt_of_le hj (List.length_take_le' k l)),
        if_neg (by omega), if_neg (by omega)]
    have := sum_of_onehot (l.take k) (l.take k).length hprop
    rwa [if_neg (lt_irrefl _)] at this
  · have hlen : (l.take (k + 1)).length = k + 1 :=
      List.length_take_of_le (by omega)
    have hprop : ∀ j (hj : j < (l.take (k + 1)).length),
        (l.take (k + 1))[j] = if j = k then (1 : ℝ) else 0 := by
      intro j hj
      rw [List.getElem_take, h j (lt_of_lt_of_le hj (List.length_take_le' (k + 1) l))]
    have := sum_of_onehot (l.take (k + 1)) k hprop
    rwa [hlen, if_pos (by omega)] at this

theorem gval_one (t : ℝ) : gval t 1 = 1 := by
  unfold gval
  rw [if_neg one_ne_zero, Real.log_one, zero_div, Real.exp_zero]

theorem gval_zero (t : ℝ) : gval t 0 = 0 := by
  unfold gval
  rw [if_pos rfl]

-- the sampler's probability vector for a degenerate (one-hot) input

theorem sampleProbs_onehot (preds : List ℝ) (t : ℝ) (k : Nat)
    (hk : k < preds.length)
    (hone : ∀ j (hj : j < preds.length), preds[j] = if j = k then (1 : ℝ) else 0) :
    ∀ j (hj : j < (sampleProbs preds t).length),
      (sampleProbs preds t)[j] = if j = k then (1 : ℝ) else 0 := by
  have hmapone : ∀ j (hj : j < (preds.map (gval t)).length),
      (preds.map (gval t))[j] = if j = k then (1 : ℝ) else 0 := by
    intro j hj
    rw [List.getElem_map, hone j (by simpa using hj)]
    by_cases hjk : j = k
    · simp [hjk, gval_one]
    · simp [hjk, gval_zero]
  have hS : (preds.map (gval t)).sum = 1 := by
    have := sum_of_onehot (preds.map (gval t)) k hmapone
    rwa [if_pos (by simpa using hk)] at this
  intro j hj
  have hj' : j < preds.length := by
    rw [sampleProbs_length] at hj
    exact hj
  have hval : (sampleProbs preds t)[j] = gval t preds[j] / (preds.map (gval t)).sum := by
    simp only [sampleProbs_eq_map, List.getElem_map]
  rw [hval, hS, div_one, hone j hj']
  by_cases hjk : j = k
  · simp [hjk, gval_one]
  · simp [hjk, gval_zero]

-- C1: the temperature sampler draws from the temperature-scaled softmax

/-- C1: for a vector `preds` of strictly positive reals and a temperature
`t > 0`, `sample` returns a single index in `[0, V)`, and the categorical
distribution it draws from is exactly the temperature-scaled softmax of the
element-wise logarithms of `preds`: the internal probability vector has
length `V`, sums to `1`, its `i`-th entry is
`exp(log preds[i] / t) / Σ_j exp(log preds[j] / t)`, and the draw returns
`i` exactly when the uniform number `u` falls in the CDF interval of that
entry. -/
theorem sample_is_temperature_softmax_draw
    (preds : List ℝ) (t u : ℝ) (hne : preds ≠ [])
    (hpos : ∀ x ∈ preds, 0 < x) (ht : 0 < t) (hu0 : 0 ≤ u) (hu1 : u < 1) :
    sample preds t u < preds.length ∧
    (sampleProbs preds t).length = preds.length ∧
    (sampleProbs preds t).sum = 1 ∧
    (∀ i (hi : i < preds.length),
      (sampleProbs preds t)[i]? =
        some (Real.exp (Real.log (preds.get ⟨i, hi⟩) / t) /
          (preds.map (fun x => Real.exp (Real.log x / t))).sum)) ∧
    (∀ i, i < preds.length →
      (sample preds t u = i ↔
        ((sampleProbs preds t).take i).sum ≤ u ∧
          u < ((sampleProbs preds t).take (i + 1)).sum)) := by
  have hsum := sampleProbs_sum_one preds t hne hpos
  have hlen := sampleProbs_length preds t
  have hnn := sampleProbs_nonneg preds t hpos
  have hlt : sample preds t u < preds.length := by
    rw [← hlen]
    simp only [sample]
    exact cdfIndex_lt_length _ u hu0 (by rw [hsum]; exact hu1)
  refine ⟨hlt, hlen, hsum, ?_, ?_⟩
  · intro i hi
    have hSmap : (preds.map (gval t)).sum
        = (preds.map (fun x => Real.exp (Real.log x / t))).sum :=
      congrArg List.sum (List.map_congr_left fun a ha => gval_of_pos t a (hpos a ha))
    have hmem : preds.get ⟨i, hi⟩ ∈ preds := List.get_mem preds i hi
    have h1 : (sampleProbs preds t)[i]? =
        some (gval t (preds.get ⟨i, hi⟩) / (preds.map (gval t)).sum) := by
      rw [sampleProbs_eq_map, List.getElem?_map, List.getElem?_eq_getElem hi]
      simp [List.get_eq_getElem]
    rw [h1, gval_of_pos t _ (hpos _ hmem), hSmap]
  · intro i hi
    simp only [sample]
    exact cdfIndex_eq_iff (sampleProbs preds t) u i hnn hu0 (by rw [hlen]; exact hi)

/-- Witness for C1 at `preds = [1, 1]`, `t = 1`, `u = 0`. -/
theorem sample_is_temperature_softmax_draw_witness :
    ([(1 : ℝ), 1] ≠ [] ∧ (∀ x ∈ [(1 : ℝ), 1], 0 < x) ∧ (0 : ℝ) < 1) ∧
    sample [(1 : ℝ), 1] 1 0 < ([(1 : ℝ), 1]).length :=
  ⟨⟨by simp, by simp, one_pos⟩,
    (sample_is_temperature_softmax_draw [(1 : ℝ), 1] 1 0 (by simp) (by simp)
      one_pos (le_refl 0) one_pos).1⟩

-- C2: a degenerate distribution is sampled with certainty

/-- C2: for any temperature `t > 0` and an input vector with a single entry
`1` at position `k` and `0` everywhere else, `sample` returns `k` for every
uniform draw `u ∈ [0,1)` — certainty survives the logarithm of the zero
entries, which the float pipeline turns into probability `0`. -/
theorem sample_degenerate_certainty
    (preds : List ℝ) (t u : ℝ) (k : Nat) (hk : k < preds.length)
    (h1 : preds[k] = 1)
    (h0 : ∀ j (hj : j < preds.length), j ≠ k → preds[j] = 0)
    (ht : 0 < t) (hu0 : 0 ≤ u) (hu1 : u < 1) :
    sample preds t u = k := by
  have hone : ∀ j (hj : j < preds.length), preds[j] = if j = k then (1 : ℝ) else 0 := by
    intro j hj
    by_cases hjk : j = k
    · subst hjk
      rw [if_pos rfl]
      exact h1
    · rw [if_neg hjk]
      exact h0 j hj hjk
  have hprop := sampleProbs_onehot preds t k hk hone
  have hk' : k < (sampleProbs preds t).length := by
    rw [sampleProbs_length]
    exact hk
  have hnn : ∀ x ∈ sampleProbs preds t, 0 ≤ x := by
    intro x hx
    rcases List.mem_iff_getElem.1 hx with ⟨j, hj, rfl⟩
    rw [hprop j hj]
    by_cases hjk : j = k <;> simp [hjk]
  have htake := take_sum_of_onehot (sampleProbs preds t) k hk' hprop
  have hcdf := (cdfIndex_eq_iff (sampleProbs preds t) u k hnn hu0 hk').2
    ⟨by rw [htake.1]; exact hu0, by rw [htake.2]; exact hu1⟩
  simpa [sample] using hcdf

/-- Witness for C2 at `preds = [0, 1, 0]`, `k = 1`, `t = 2`, `u = 0`. -/
theorem sample_degenerate_certainty_witness :
    1 < ([(0 : ℝ), 1, 0]).length ∧ sample [(0 : ℝ), 1, 0] 2 0 = 1 :=
  ⟨by simp,
    sample_degenerate_certainty [(0 : ℝ), 1, 0] 2 0 1 (by simp) rfl
      (by
        intro j hj hjk
        match j, hj with
        | 0, _ => rfl
        | 1, _ => exact absurd rfl hjk
        | 2, _ => rfl)
      two_pos (le_refl 0) one_pos⟩

-- C9: positive rescaling invariance of the sampler

/-- C9: multiplying the sampler input by a positive constant `c` leaves the
computed probability vector, and therefore the sampled index for every
uniform draw, unchanged; and at `t = 1` the probability vector is exactly
the input renormalized by its sum. -/
theorem sample_rescaling_invariance
    (preds : List ℝ) (c t : ℝ) (hne : preds ≠ [])
    (hpos : ∀ x ∈ preds, 0 < x) (hc : 0 < c) (ht : 0 < t) :
    sampleProbs (preds.map (fun x => c * x)) t = sampleProbs preds t ∧
    (∀ u, sample (preds.map (fun x => c * x)) t u = sample preds t u) ∧
    sampleProbs preds 1 = preds.map (fun x => x / preds.sum) := by
  have hK : (0 : ℝ) < Real.exp (Real.log c / t) := Real.exp_pos _
  have h1 : ∀ x ∈ preds, gval t (c * x) = Real.exp (Real.log c / t) * gval t x := by
    intro x hx
    have hx' := hpos x hx
    rw [gval_of_pos t (c * x) (by positivity), gval_of_pos t x hx',
      Real.log_mul (ne_of_gt hc) (ne_of_gt hx'), add_div, Real.exp_add]
  have hmain : sampleProbs (preds.map (fun x => c * x)) t = sampleProbs preds t := by
    rw [sampleProbs_eq_map, sampleProbs_eq_map, List.map_map]
    have hsum : ((preds.map (fun x => c * x)).map (gval t)).sum
        = Real.exp (Real.log c / t) * (preds.map (gval t)).sum := by
      rw [List.map_map]
      have e1 : preds.map (gval t ∘ fun x => c * x)
          = preds.map (fun x => Real.exp (Real.log c / t) * gval t x) :=
        List.map_congr_left (fun a ha => h1 a ha)
      rw [e1, map_mul_sum]
    refine List.map_congr_left (fun a ha => ?_)
    show gval t (c * a) / ((preds.map (fun x => c * x)).map (gval t)).sum
        = gval t a / (preds.map (gval t)).sum
    rw [hsum, h1 a ha, mul_div_mul_left _ _ (ne_of_gt hK)]
  refine ⟨hmain, ?_, ?_⟩
  · intro u
    simp only [sample]
    rw [hmain]
  · have hid : preds.map (gval 1) = preds := by
      have e2 : preds.map (gval 1) = preds.map id :=
        List.map_congr_left (fun a ha => by
          rw [gval_of_pos 1 a (hpos a ha), div_one, Real.exp_log (hpos a ha)]
          rfl)
      rw [e2, List.map_id]
    rw [sampleProbs_eq_map]
    refine List.map_congr_left (fun a ha => ?_)
    rw [gval_of_pos 1 a (hpos a ha), div_one, Real.exp_log (hpos a ha), hid]

/-- Witness for C9 at `preds = [1, 2]`, `c = 2`, `t = 1`. -/
theorem sample_rescaling_invariance_witness :
    (∀ x ∈ [(1 : ℝ), 2], 0 < x) ∧
    sampleProbs ([(1 : ℝ), 2].map (fun x => 2 * x)) 1 = sampleProbs [(1 : ℝ), 2] 1 :=
  ⟨by norm_num,
    (sample_rescaling_invariance [(1 : ℝ), 2] 2 1 (by simp) (by norm_num)
      two_pos one_pos).1⟩

-- the exceptMap loop on inputs where the body never raises

theorem exceptMap_congr_ok {α β : Type} (f : α → Except GenError β) (g : α → β) :
    ∀ (l : List α), (∀ a ∈ l, f a = Except.ok (g a)) →
      exceptMap f l = Except.ok (l.map g) := by
  intro l
  induction l with
  | nil => intro _; rfl
  | cons a as ih =>
    intro h
    have ha := h a (List.mem_cons_self a as)
    have hrest := ih (fun b hb => h b (List.mem_cons_of_mem a hb))
    simp [exceptMap, ha, hrest]

-- C4: the sliding-window pair construction

/-- C4: when the corpus is longer than the window length `L`, the windowing
loop succeeds and produces exactly `corpus.length - L` pairs, the `i`-th of
which is the length-`L` slice starting at `i` together with the character
at position `i + L`. -/
theorem windowing_pairs_exact (corpus : List Char) (L : Nat)
    (hL : L < corpus.length) :
    ∃ pairs, windowPairsE corpus L = Except.ok pairs ∧
      pairs.length = corpus.length - L ∧
      ∀ i (hi : i < corpus.length - L),
        pairs[i]? = some ((corpus.drop i).take L, corpus.get ⟨i + L, by omega⟩) := by
  have hok : windowPairsE corpus L = Except.ok
      ((List.range (corpus.length - L)).map
        (fun i => ((corpus.drop i).take L, corpus.getD (i + L) ' '))) := by
    apply exceptMap_congr_ok
    intro i hi
    have hi' : i < corpus.length - L := List.mem_range.1 hi
    have hiL : i + L < corpus.length := by omega
    rw [List.getElem?_eq_getElem hiL]
    rw [List.getD_eq_getElem corpus ' ' hiL]
  refine ⟨_, hok, by simp, ?_⟩
  intro i hi
  have hiL : i + L < corpus.length := by omega
  rw [List.getElem?_map, List.getElem?_range hi, Option.map_some']
  rw [List.getD_eq_getElem corpus ' ' hiL, List.get_eq_getElem]

/-- Witness for C4: a corpus of length 105 with `L = 100` yields exactly 5
pairs. -/
theorem windowing_pairs_exact_witness :
    100 < (List.replicate 105 'a').length ∧
    ∃ pairs, windowPairsE (List.replicate 105 'a') 100 = Except.ok pairs ∧
      pairs.length = 5 := by
  have h := windowing_pairs_exact (List.replicate 105 'a') 100
    (by rw [List.length_replicate]; omega)
  rcases h with ⟨pairs, hp, hlen, _⟩
  refine ⟨by rw [List.length_replicate]; omega, pairs, hp, ?_⟩
  rw [hlen, List.length_replicate]

-- C5: a corpus no longer than the window produces zero pairs and no error

/-- C5 counterexample: for a corpus of length 5 with `L = 100` the windowing
loop returns the ordinary value `ok []` — zero pairs — and does not signal
any error to the caller. -/
theorem windowing_short_corpus_no_error :
    windowPairsE (List.replicate 5 'a') 100 = Except.ok [] ∧
    ∀ e, windowPairsE (List.replicate 5 'a') 100 ≠ Except.error e := by
  have h : windowPairsE (List.replicate 5 'a') 100 = Except.ok [] := rfl
  exact ⟨h, fun e he => by rw [h] at he; exact Except.noConfusion he⟩

/-- C5 amended: for every corpus of length at most `L`, the windowing loop
produces zero pairs, returning normally with no error signalled. -/
theorem windowing_short_corpus_empty (corpus : List Char) (L : Nat)
    (h : corpus.length ≤ L) : windowPairsE corpus L = Except.ok [] := by
  unfold windowPairsE
  rw [Nat.sub_eq_zero_of_le h]
  rfl

/-- Witness for the amended C5 at a concrete corpus of length 5, `L = 100`. -/
theorem windowing_short_corpus_empty_witness :
    (List.replicate 5 'a').length ≤ 100 ∧
    windowPairsE (List.replicate 5 'a') 100 = Except.ok [] :=
  ⟨by rw [List.length_replicate]; omega,
    windowing_short_corpus_empty (List.replicate 5 'a') 100
      (by rw [List.length_replicate]; omega)⟩

-- C6: the vocabulary indexer

/-- C6: the vocabulary list is strictly sorted (so indices `0..V-1` follow
ascending character order); every corpus character has an index and maps
back to itself; every index below `V` maps to a corpus character and back
to itself; and a character has an index exactly when it occurs in the
corpus. -/
theorem vocab_sorted_mutual_inverse (corpus : List Char) (hne : corpus ≠ []) :
    (charsOf corpus).Sorted (· < ·) ∧
    (∀ c ∈ corpus, ∃ i, char_to_int corpus c = some i ∧
      i < (charsOf corpus).length ∧ int_to_char corpus i = some c) ∧
    (∀ i, i < (charsOf corpus).length → ∃ c, int_to_char corpus i = some c ∧
      char_to_int corpus c = some i ∧ c ∈ corpus) ∧
    (∀ c, (∃ i, char_to_int corpus c = some i) ↔ c ∈ corpus) := by
  have hmem : ∀ c : Char, c ∈ charsOf corpus ↔ c ∈ corpus := by
    intro c
    unfold charsOf
    rw [Finset.mem_sort, List.mem_toFinset]
  have hnd : (charsOf corpus).Nodup := Finset.sort_nodup _ _
  have hto : ∀ c ∈ corpus, ∃ i, char_to_int corpus c = some i ∧
      i < (charsOf corpus).length ∧ int_to_char corpus i = some c := by
    intro c hc
    have hc' : c ∈ charsOf corpus := (hmem c).2 hc
    have hidx : (charsOf corpus).indexOf c < (charsOf corpus).length :=
      List.indexOf_lt_length.2 hc'
    refine ⟨(charsOf corpus).indexOf c, ?_, hidx, ?_⟩
    · rw [char_to_int, if_pos hc']
    · rw [int_to_char, List.getElem?_eq_getElem hidx]
      have hg := List.indexOf_get (a := c) (l := charsOf corpus) hidx
      rw [List.get_eq_getElem] at hg
      rw [hg]
  refine ⟨Finset.sort_sorted_lt _, hto, ?_, ?_⟩
  · intro i hi
    have hcmem : (charsOf corpus)[i] ∈ charsOf corpus := List.getElem_mem hi
    refine ⟨(charsOf corpus)[i], ?_, ?_, (hmem _).1 hcmem⟩
    · rw [int_to_char, List.getElem?_eq_getElem hi]
    · rw [char_to_int, if_pos hcmem, List.indexOf_getElem hnd i hi]
  · intro c
    constructor
    · intro ⟨i, hi⟩
      by_cases hc' : c ∈ charsOf corpus
      · exact (hmem c).1 hc'
      · rw [char_to_int, if_neg hc'] at hi
        exact Option.noConfusion hi
    · intro hc
      rcases hto c hc with ⟨i, hi, _, _⟩
      exact ⟨i, hi⟩

/-- Witness for C6 at the corpus `"aab"`. -/
theorem vocab_sorted_mutual_inverse_witness :
    (['a', 'a', 'b'] : List Char) ≠ [] ∧
    (∀ c ∈ (['a', 'a', 'b'] : List Char), ∃ i,
      char_to_int ['a', 'a', 'b'] c = some i ∧
      i < (charsOf ['a', 'a', 'b']).length ∧
      int_to_char ['a', 'a', 'b'] i = some c) :=
  ⟨by simp, (vocab_sorted_mutual_inverse ['a', 'a', 'b'] (by simp)).2.1⟩

-- equation lemmas for the generation loop

theorem genLoop_nil (L : Nat) (t : ℝ) (st : PState) :
    genLoop L t [] st = Except.ok st := rfl

theorem genLoop_cons (L : Nat) (t u : ℝ) (us : List ℝ) (st : PState) :
    genLoop L t (u :: us) st =
      match stepGen L t u st with
      | Except.error e => Except.error e
      | Except.ok st' => genLoop L t us st' := rfl

-- equation lemmas for the per-position encoding loop

theorem encodeIdxs_nil (chars : List Char) (L t : Nat) :
    encodeIdxs chars L t [] = Except.ok [] := rfl

theorem encodeIdxs_cons (chars : List Char) (L t : Nat) (c : Char) (cs : List Char) :
    encodeIdxs chars L t (c :: cs) =
      if c ∈ chars then
        if t < L then
          match encodeIdxs chars L (t + 1) cs with
          | Except.error e => Except.error e
          | Except.ok idxs => Except.ok (chars.indexOf c :: idxs)
        else Except.error GenError.indexError
      else Except.error (GenError.keyError c) := rfl

-- the encoding loop on a window that fits and whose characters are known

theorem encodeIdxs_ok (chars : List Char) (L : Nat) :
    ∀ (s : List Char) (t : Nat), t + s.length ≤ L → (∀ c ∈ s, c ∈ chars) →
      encodeIdxs chars L t s = Except.ok (s.map (fun c => chars.indexOf c)) := by
  intro s
  induction s with
  | nil => intro t _ _; rfl
  | cons c cs ih =>
    intro t hlen hmem
    rw [List.length_cons] at hlen
    rw [encodeIdxs_cons, if_pos (hmem c (List.mem_cons_self c cs)),
      if_pos (by omega),
      ih (t + 1) (by omega) (fun b hb => hmem b (List.mem_cons_of_mem c hb))]
    rfl

-- the encoder on a fully known window

theorem encodeWindow_ok (chars : List Char) (L : Nat) (s : List Char)
    (hlen : s.length ≤ L) (hmem : ∀ c ∈ s, c ∈ chars) :
    encodeWindow chars L s = Except.ok ((List.range L).map (fun i =>
      match (s.map (fun c => chars.indexOf c))[i]? with
      | some idx => encodeRow chars.length idx
      | none => List.replicate chars.length 0)) := by
  unfold encodeWindow
  rw [encodeIdxs_ok chars L s 0 (by omega) hmem]

theorem encodeWindow_rows (chars : List Char) (L : Nat) (s : List Char)
    (hlen : s.length ≤ L) (hmem : ∀ c ∈ s, c ∈ chars) :
    ∃ m, encodeWindow chars L s = Except.ok m ∧ m.length = L ∧
      (∀ i (hi : i < s.length),
        m[i]? = some (encodeRow chars.length (chars.indexOf (s.get ⟨i, hi⟩)))) ∧
      (∀ i, s.length ≤ i → i < L →
        m[i]? = some (List.replicate chars.length 0)) := by
  refine ⟨_, encodeWindow_ok chars L s hlen hmem, by simp, ?_, ?_⟩
  · intro i hi
    rw [List.getElem?_map, List.getElem?_range (lt_of_lt_of_le hi hlen), Option.map_some']
    rw [List.getElem?_map, List.getElem?_eq_getElem hi, Option.map_some']
    rw [List.get_eq_getElem]
  · intro i hsi hiL
    rw [List.getElem?_map, List.getElem?_range hiL, Option.map_some']
    rw [List.getElem?_map, List.getElem?_eq_none (by simpa using hsi), Option.map_none']

-- the sampled index is always in range for valid inputs

theorem sample_lt_length (preds : List ℝ) (t u : ℝ) (hne : preds ≠ [])
    (hpos : ∀ x ∈ preds, 0 < x) (hu0 : 0 ≤ u) (hu1 : u < 1) :
    sample preds t u < preds.length := by
  rw [← sampleProbs_length preds t]
  simp only [sample]
  exact cdfIndex_lt_length _ u hu0
    (by rw [sampleProbs_sum_one preds t hne hpos]; exact hu1)

-- shape of a successful generation step

theorem stepGen_ok_shape (L : Nat) (t u : ℝ) (st st' : PState)
    (h : stepGen L t u st = Except.ok st') :
    st'.chars = st.chars ∧ st'.model = st.model ∧
    ∃ c, st'.sentence = st.sentence.drop 1 ++ [c] ∧
      st'.generated = st.generated ++ [c] := by
  unfold stepGen at h
  cases henc : encodeWindow st.chars L st.sentence with
  | error e =>
    rw [henc] at h
    exact Except.noConfusion h
  | ok x =>
    rw [henc] at h
    simp only [] at h
    cases hidx : st.chars[sample (st.model x) t u]? with
    | none =>
      rw [hidx] at h
      exact Except.noConfusion h
    | some c =>
      rw [hidx] at h
      have h2 := Except.ok.inj h
      exact ⟨by rw [← h2], by rw [← h2], c, by rw [← h2], by rw [← h2]⟩

-- a generation step succeeds on a valid state

theorem stepGen_ok_of_valid (chars : List Char) (M : List (List ℝ) → List ℝ)
    (L : Nat) (t u : ℝ) (st : PState)
    (hM : ValidModel chars M) (hu0 : 0 ≤ u) (hu1 : u < 1)
    (hchars : st.chars = chars) (hmodel : st.model = M)
    (hne : st.sentence ≠ []) (hlenL : st.sentence.length ≤ L)
    (hmem : ∀ c ∈ st.sentence, c ∈ chars) :
    ∃ st1, stepGen L t u st = Except.ok st1 ∧
      st1.chars = chars ∧ st1.model = M ∧
      ∃ c, c ∈ chars ∧ st1.sentence = st.sentence.drop 1 ++ [c] ∧
        st1.generated = st.generated ++ [c] := by
  obtain ⟨m, hm⟩ : ∃ m, encodeWindow chars L st.sentence = Except.ok m :=
    ⟨_, encodeWindow_ok chars L st.sentence hlenL hmem⟩
  have hcne : chars ≠ [] := by
    rcases hs : st.sentence with _ | ⟨c0, s'⟩
    · exact absurd hs hne
    · have hmemc := hmem c0 (by rw [hs]; exact List.mem_cons_self c0 s')
      intro hempty
      rw [hempty] at hmemc
      exact absurd hmemc (List.not_mem_nil c0)
  have hplen : (M m).length = chars.length := (hM m).1
  have hppos : ∀ p ∈ M m, 0 < p := (hM m).2
  have hpne : M m ≠ [] := by
    intro h0
    rw [h0] at hplen
    exact hcne (List.length_eq_zero.1 hplen.symm)
  have hslt : sample (M m) t u < chars.length := by
    rw [← hplen]
    exact sample_lt_length _ t u hpne hppos hu0 hu1
  have hchars' : chars[sample (M m) t u]? = some chars[sample (M m) t u] :=
    List.getElem?_eq_getElem hslt
  refine ⟨⟨chars, M, st.sentence.drop 1 ++ [chars[sample (M m) t u]],
      st.generated ++ [chars[sample (M m) t u]]⟩, ?_, rfl, rfl,
    chars[sample (M m) t u], List.getElem_mem hslt, rfl, rfl⟩
  unfold stepGen
  rw [hchars, hmodel, hm]
  simp only []
  rw [hchars']

-- invariant of the generation loop on valid states

theorem genLoop_ok_invariant (chars : List Char) (M : List (List ℝ) → List ℝ)
    (L : Nat) (t : ℝ) (hM : ValidModel chars M) :
    ∀ (us : List ℝ) (st : PState),
      (∀ u ∈ us, 0 ≤ u ∧ u < 1) →
      st.chars = chars → st.model = M →
      st.sentence ≠ [] → st.sentence.length ≤ L →
      (∀ c ∈ st.sentence, c ∈ chars) →
      ∃ st', genLoop L t us st = Except.ok st' ∧
        st'.chars = chars ∧ st'.model = M ∧
        st'.sentence.length = st.sentence.length ∧
        (∀ c ∈ st'.sentence, c ∈ chars) ∧
        st'.generated.length = st.generated.length + us.length ∧
        st'.generated.take st.generated.length = st.generated := by
  intro us
  induction us with
  | nil =>
    intro st _ h1 h2 _ _ h5
    exact ⟨st, rfl, h1, h2, rfl, h5, by simp, List.take_length st.generated⟩
  | cons u us ih =>
    intro st hu h1 h2 h3 h4 h5
    obtain ⟨st1, hstep, q1, q2, c, hcmem, hsent, hgen⟩ :=
      stepGen_ok_of_valid chars M L t u st hM
        (hu u (List.mem_cons_self u us)).1 (hu u (List.mem_cons_self u us)).2
        h1 h2 h3 h4 h5
    have hpos : 0 < st.sentence.length := List.length_pos.2 h3
    have hlen1 : st1.sentence.length = st.sentence.length := by
      rw [hsent, List.length_append, List.length_drop]
      simp
      omega
    have h3' : st1.sentence ≠ [] := by
      rw [hsent]
      simp
    have h4' : st1.sentence.length ≤ L := by
      rw [hlen1]
      exact h4
    have h5' : ∀ c' ∈ st1.sentence, c' ∈ chars := by
      intro c' hc'
      rw [hsent] at hc'
      rcases List.mem_append.1 hc' with h | h
      · exact h5 c' (List.mem_of_mem_drop h)
      · rw [List.mem_singleton.1 h]
        exact hcmem
    obtain ⟨st', hloop, p1, p2, p3, p4, p5, p6⟩ :=
      ih st1 (fun v hv => hu v (List.mem_cons_of_mem u hv)) q1 q2 h3' h4' h5'
    have hgrow : st.generated.length ≤ st1.generated.length := by
      rw [hgen]
      simp
    refine ⟨st', ?_, p1, p2, ?_, p4, ?_, ?_⟩
    · rw [genLoop_cons, hstep]
      exact hloop
    · rw [p3, hlen1]
    · rw [p5, hgen]
      simp
      omega
    · calc st'.generated.take st.generated.length
          = (st'.generated.take st1.generated.length).take st.generated.length := by
            rw [List.take_take, Nat.min_eq_left hgrow]
        _ = st1.generated.take st.generated.length := by rw [p6]
        _ = st.generated := by rw [hgen]; exact List.take_left st.generated [c]

-- C3: a full-window seed yields seed + N characters

/-- C3: for a seed of exactly the window length whose characters all occur
in the vocabulary, a strictly positive temperature, a model that always
returns a strictly positive distribution over the vocabulary, and any
number of uniform draws in `[0,1)`, `generate` succeeds and its output
buffer has length `len(seed) + N` and begins with the seed; with `N = 0`
the buffer is the seed unchanged. -/
theorem generate_extends_seed (chars : List Char) (M : List (List ℝ) → List ℝ)
    (L : Nat) (seed : List Char) (t : ℝ) (us : List ℝ)
    (hL : 0 < L) (hseed : seed.length = L)
    (hmem : ∀ c ∈ seed, c ∈ chars)
    (hM : ValidModel chars M) (ht : 0 < t)
    (hus : ∀ u ∈ us, 0 ≤ u ∧ u < 1) :
    ∃ st', generate chars M L seed t us = Except.ok st' ∧
      st'.generated.length = seed.length + us.length ∧
      st'.generated.take seed.length = seed ∧
      (us = [] → st'.generated = seed) := by
  have hsne : seed ≠ [] := by
    intro h
    rw [h] at hseed
    simp at hseed
    omega
  obtain ⟨st', h1, _, _, _, _, h5, h6⟩ := genLoop_ok_invariant chars M L t hM us
    { chars := chars, model := M, sentence := seed, generated := seed }
    hus rfl rfl hsne (le_of_eq hseed) hmem
  have h5' : st'.generated.length = seed.length + us.length := by simpa using h5
  have h6' : st'.generated.take seed.length = seed := by simpa using h6
  refine ⟨st', h1, h5', h6', ?_⟩
  intro hnil
  subst hnil
  have hlen' : st'.generated.length = seed.length := by simpa using h5'
  calc st'.generated = st'.generated.take st'.generated.length :=
        (List.take_length _).symm
    _ = st'.generated.take seed.length := by rw [hlen']
    _ = seed := h6'

/-- Witness for C3 with vocabulary `['a']`, the constant model `[1]`,
`L = 1`, seed `"a"`, `t = 1` and one uniform draw `0`. -/
theorem generate_extends_seed_witness :
    ValidModel ['a'] (fun _ => [(1 : ℝ)]) ∧
    ∃ st', generate ['a'] (fun _ => [(1 : ℝ)]) 1 ['a'] 1 [(0 : ℝ)] = Except.ok st' ∧
      st'.generated.length = (['a'] : List Char).length + ([(0 : ℝ)] : List ℝ).length ∧
      st'.generated.take (['a'] : List Char).length = ['a'] ∧
      (([(0 : ℝ)] : List ℝ) = [] → st'.generated = ['a']) := by
  have hM : ValidModel ['a'] (fun _ => [(1 : ℝ)]) := by
    intro x
    refine ⟨rfl, ?_⟩
    intro p hp
    rw [List.mem_singleton.1 hp]
    exact one_pos
  exact ⟨hM, generate_extends_seed ['a'] (fun _ => [(1 : ℝ)]) 1 ['a'] 1 [(0 : ℝ)]
    Nat.one_pos rfl (by simp) hM one_pos
    (by intro u hu; rw [List.mem_singleton.1 hu]; exact ⟨le_refl 0, one_pos⟩)⟩

-- C7: the rolling generation state

/-- C7: starting from a seed of exactly the window length `L`, the state
after every prefix of the `N` steps still has length `L`; each successful
step replaces the state by `state[1:] + next_char` — it drops the first
character and appends the sampled one — and this preserves the length of a
non-empty state. -/
theorem generation_state_rolling (chars : List Char) (M : List (List ℝ) → List ℝ)
    (L : Nat) (seed : List Char) (t : ℝ) (us : List ℝ)
    (hL : 0 < L) (hseed : seed.length = L)
    (hmem : ∀ c ∈ seed, c ∈ chars)
    (hM : ValidModel chars M) (ht : 0 < t)
    (hus : ∀ u ∈ us, 0 ≤ u ∧ u < 1) :
    (∀ k, k ≤ us.length → ∃ st', genLoop L t (us.take k)
        { chars := chars, model := M, sentence := seed, generated := seed } =
          Except.ok st' ∧ st'.sentence.length = L) ∧
    (∀ (st st' : PState) (u : ℝ), stepGen L t u st = Except.ok st' →
      ∃ c, st'.sentence = st.sentence.drop 1 ++ [c] ∧
        st'.generated = st.generated ++ [c]) ∧
    (∀ (st st' : PState) (u : ℝ), stepGen L t u st = Except.ok st' →
      st.sentence ≠ [] → st'.sentence.length = st.sentence.length) := by
  have hsne : seed ≠ [] := by
    intro h
    rw [h] at hseed
    simp at hseed
    omega
  refine ⟨?_, ?_, ?_⟩
  · intro k _
    obtain ⟨st', h1, _, _, hlen, _, _, _⟩ := genLoop_ok_invariant chars M L t hM
      (us.take k)
      { chars := chars, model := M, sentence := seed, generated := seed }
      (fun v hv => hus v (List.mem_of_mem_take hv)) rfl rfl hsne
      (le_of_eq hseed) hmem
    refine ⟨st', h1, ?_⟩
    rw [hlen]
    exact hseed
  · intro st st' u hstep
    obtain ⟨_, _, c, hs, hg⟩ := stepGen_ok_shape L t u st st' hstep
    exact ⟨c, hs, hg⟩
  · intro st st' u hstep hne
    obtain ⟨_, _, c, hs, _⟩ := stepGen_ok_shape L t u st st' hstep
    rw [hs, List.length_append, List.length_drop]
    have := List.length_pos.2 hne
    simp
    omega

/-- Witness for C7 with vocabulary `['a']`, the constant model `[1]`,
`L = 1`, seed `"a"`, `t = 1`, one uniform draw, checked after `k = 1`
steps. -/
theorem generation_state_rolling_witness :
    ∃ st', genLoop 1 1 ([(0 : ℝ)].take 1)
        { chars := ['a'], model := fun _ => [(1 : ℝ)],
          sentence := ['a'], generated := ['a'] } = Except.ok st' ∧
      st'.sentence.length = 1 := by
  have hM : ValidModel ['a'] (fun _ => [(1 : ℝ)]) := by
    intro x
    refine ⟨rfl, ?_⟩
    intro p hp
    rw [List.mem_singleton.1 hp]
    exact one_pos
  exact (generation_state_rolling ['a'] (fun _ => [(1 : ℝ)]) 1 ['a'] 1 [(0 : ℝ)]
    Nat.one_pos rfl (by simp) hM one_pos
    (by intro u hu; rw [List.mem_singleton.1 hu]; exact ⟨le_refl 0, one_pos⟩)).1
    1 (le_refl 1)

-- C10: seeds shorter than the window are neither rejected nor padded

/-- C10: for a non-empty seed strictly shorter than the window length `L`
whose characters occur in the vocabulary, `generate` completes and returns
a buffer of length `len(seed) + N` beginning with the seed; the rolling
state keeps length `len(seed)` after every prefix of steps; and encoding a
state shorter than `L` fills exactly the first `len(state)` rows of the
`(L, V)` input one-hot, leaving the trailing rows all zero. -/
theorem generate_short_seed (chars : List Char) (M : List (List ℝ) → List ℝ)
    (L : Nat) (seed : List Char) (t : ℝ) (us : List ℝ)
    (h0 : 0 < seed.length) (hL : seed.length < L)
    (hmem : ∀ c ∈ seed, c ∈ chars)
    (hM : ValidModel chars M) (ht : 0 < t)
    (hus : ∀ u ∈ us, 0 ≤ u ∧ u < 1) :
    (∃ st', generate chars M L seed t us = Except.ok st' ∧
      st'.generated.length = seed.length + us.length ∧
      st'.generated.take seed.length = seed) ∧
    (∀ k, k ≤ us.length → ∃ st', genLoop L t (us.take k)
        { chars := chars, model := M, sentence := seed, generated := seed } =
          Except.ok st' ∧ st'.sentence.length = seed.length) ∧
    (∀ s : List Char, s.length < L → (∀ c ∈ s, c ∈ chars) →
      ∃ m, encodeWindow chars L s = Except.ok m ∧ m.length = L ∧
        (∀ i (hi : i < s.length),
          m[i]? = some (encodeRow chars.length (chars.indexOf (s.get ⟨i, hi⟩)))) ∧
        (∀ i, s.length ≤ i → i < L →
          m[i]? = some (List.replicate chars.length 0))) := by
  have hsne : seed ≠ [] := List.length_pos.1 h0
  refine ⟨?_, ?_, ?_⟩
  · obtain ⟨st', h1, _, _, _, _, h5, h6⟩ := genLoop_ok_invariant chars M L t hM us
      { chars := chars, model := M, sentence := seed, generated := seed }
      hus rfl rfl hsne (le_of_lt hL) hmem
    exact ⟨st', h1, by simpa using h5, by simpa using h6⟩
  · intro k _
    obtain ⟨st', h1, _, _, hlen, _, _, _⟩ := genLoop_ok_invariant chars M L t hM
      (us.take k)
      { chars := chars, model := M, sentence := seed, generated := seed }
      (fun v hv => hus v (List.mem_of_mem_take hv)) rfl rfl hsne
      (le_of_lt hL) hmem
    exact ⟨st', h1, by simpa using hlen⟩
  · intro s hsL hsmem
    exact encodeWindow_rows chars L s (le_of_lt hsL) hsmem

/-- Witness for C10 with vocabulary `['a']`, the constant model `[1]`,
`L = 2`, seed `"a"` (length 1 < 2), `t = 1` and one uniform draw. -/
theorem generate_short_seed_witness :
    ∃ st', generate ['a'] (fun _ => [(1 : ℝ)]) 2 ['a'] 1 [(0 : ℝ)] = Except.ok st' ∧
      st'.generated.length = (['a'] : List Char).length + ([(0 : ℝ)] : List ℝ).length ∧
      st'.generated.take (['a'] : List Char).length = ['a'] := by
  have hM : ValidModel ['a'] (fun _ => [(1 : ℝ)]) := by
    intro x
    refine ⟨rfl, ?_⟩
    intro p hp
    rw [List.mem_singleton.1 hp]
    exact one_pos
  exact (generate_short_seed ['a'] (fun _ => [(1 : ℝ)]) 2 ['a'] 1 [(0 : ℝ)]
    Nat.one_pos (by decide) (by simp) hM one_pos
    (by intro u hu; rw [List.mem_singleton.1 hu]; exact ⟨le_refl 0, one_pos⟩)).1

-- error propagation through the encoder and the loop

theorem encodeIdxs_unknown_error (chars : List Char) (L : Nat) :
    ∀ (s : List Char) (t : Nat), t + s.length ≤ L → (∃ c ∈ s, c ∉ chars) →
      ∃ c, c ∉ chars ∧
        encodeIdxs chars L t s = Except.error (GenError.keyError c) := by
  intro s
  induction s with
  | nil =>
    intro t _ ⟨c, hc, _⟩
    exact absurd hc (List.not_mem_nil c)
  | cons a s' ih =>
    intro t hlen ⟨c, hc, hcn⟩
    rw [List.length_cons] at hlen
    by_cases ha : a ∈ chars
    · have hc' : c ∈ s' := by
        rcases List.mem_cons.1 hc with h | h
        · rw [h] at hcn
          exact absurd ha hcn
        · exact h
      obtain ⟨c', hc'n, hrec⟩ := ih (t + 1) (by omega) ⟨c, hc', hcn⟩
      refine ⟨c', hc'n, ?_⟩
      rw [encodeIdxs_cons, if_pos ha, if_pos (by omega), hrec]
    · refine ⟨a, ha, ?_⟩
      rw [encodeIdxs_cons, if_neg ha]

theorem encodeWindow_unknown_error (chars : List Char) (L : Nat) (s : List Char)
    (hlen : s.length ≤ L) (h : ∃ c ∈ s, c ∉ chars) :
    ∃ c, c ∉ chars ∧ encodeWindow chars L s = Except.error (GenError.keyError c) := by
  obtain ⟨c, hcn, hrec⟩ := encodeIdxs_unknown_error chars L s 0 (by omega) h
  refine ⟨c, hcn, ?_⟩
  unfold encodeWindow
  rw [hrec]

-- a sentence longer than the window: the per-position interleaving makes
-- the bounds check at position L fire first, so when the characters up to
-- and including position L are known the loop raises IndexError — even if
-- an unknown character sits beyond position L

theorem encodeIdxs_overlong (chars : List Char) (L : Nat) :
    ∀ (s : List Char) (t : Nat), t ≤ L → L < t + s.length →
      (∀ i (hi : i < s.length), t + i ≤ L → s[i] ∈ chars) →
      encodeIdxs chars L t s = Except.error GenError.indexError := by
  intro s
  induction s with
  | nil =>
    intro t h1 h2 _
    rw [List.length_nil] at h2
    exact absurd h2 (by omega)
  | cons a s' ih =>
    intro t h1 h2 hkn
    rw [List.length_cons] at h2
    have ha : a ∈ chars := by
      have h0 := hkn 0 (by simp) (by omega)
      rw [List.getElem_cons_zero] at h0
      exact h0
    rw [encodeIdxs_cons, if_pos ha]
    by_cases htL : t < L
    · rw [if_pos htL]
      have hkn' : ∀ i (hi : i < s'.length), t + 1 + i ≤ L → s'[i] ∈ chars := by
        intro i hi hti
        have hit := hkn (i + 1) (by simpa using Nat.succ_lt_succ hi) (by omega)
        rw [List.getElem_cons_succ] at hit
        exact hit
      rw [ih (t + 1) (by omega) (by omega) hkn']
    · rw [if_neg htL]

theorem encodeWindow_overlong_indexError (chars : List Char) (L : Nat)
    (s : List Char) (hlen : L < s.length)
    (hkn : ∀ i (hi : i < s.length), i ≤ L → s[i] ∈ chars) :
    encodeWindow chars L s = Except.error GenError.indexError := by
  unfold encodeWindow
  rw [encodeIdxs_overlong chars L s 0 (Nat.zero_le L) (by omega)
    (fun i hi hti => hkn i hi (by omega))]

-- C8: a failing step aborts generation and touches no shared state

/-- C8: every successful run of the generation loop leaves the vocabulary
list and the model of the program state exactly as they were; an error in
the first step of a loop iteration is returned as the loop's own result —
the remaining iterations never run, so there is no retry; and a state
whose window fits the window length and holds a character outside the
vocabulary makes the step fail with the `KeyError` of such a character
(for an over-long window the positionwise bounds check can fire first, so
the length bound is part of the hypothesis). -/
theorem generate_error_frame (L : Nat) (t : ℝ) :
    (∀ (us : List ℝ) (st st' : PState), genLoop L t us st = Except.ok st' →
      st'.chars = st.chars ∧ st'.model = st.model) ∧
    (∀ (u : ℝ) (us : List ℝ) (st : PState) (e : GenError),
      stepGen L t u st = Except.error e →
      genLoop L t (u :: us) st = Except.error e) ∧
    (∀ (st : PState) (u : ℝ), st.sentence.length ≤ L →
      (∃ c ∈ st.sentence, c ∉ st.chars) →
      ∃ c, c ∉ st.chars ∧ stepGen L t u st = Except.error (GenError.keyError c)) := by
  refine ⟨?_, ?_, ?_⟩
  · intro us
    induction us with
    | nil =>
      intro st st' h
      rw [genLoop_nil] at h
      have h2 := Except.ok.inj h
      rw [← h2]
      exact ⟨rfl, rfl⟩
    | cons u us ih =>
      intro st st' h
      rw [genLoop_cons] at h
      cases hstep : stepGen L t u st with
      | error e =>
        rw [hstep] at h
        exact Except.noConfusion h
      | ok st1 =>
        rw [hstep] at h
        obtain ⟨e1, e2, _⟩ := stepGen_ok_shape L t u st st1 hstep
        obtain ⟨f1, f2⟩ := ih st1 st' h
        exact ⟨f1.trans e1, f2.trans e2⟩
  · intro u us st e h
    rw [genLoop_cons, h]
  · intro st u hlen hbad
    obtain ⟨c, hcn, henc⟩ := encodeWindow_unknown_error st.chars L st.sentence hlen hbad
    refine ⟨c, hcn, ?_⟩
    unfold stepGen
    rw [henc]

/-- Witness for C8: a state whose window contains the unknown character
`'z'` makes the whole loop fail at once with that `KeyError`. -/
theorem generate_error_frame_witness :
    genLoop 1 1 [(0 : ℝ)]
      { chars := ['a'], model := fun _ => [(1 : ℝ)],
        sentence := ['z'], generated := ['z'] } =
      Except.error (GenError.keyError 'z') :=
  (generate_error_frame 1 1).2.1 0 []
    { chars := ['a'], model := fun _ => [(1 : ℝ)],
      sentence := ['z'], generated := ['z'] }
    (GenError.keyError 'z') rfl
